import Mathlib

/-!
Shallow embedding of the LM Studio "File Examiner" plugin
(`src/fileExaminerTools.ts`, configuration-aware handler; the same logic is
duplicated in the plain handler and in `File Examiner/index.js`).

Paths are modelled as POSIX-style strings (the path-normalisation and
restricted-path comparison logic of the source is platform-independent:
`path.resolve` eliminates `.`/`..` segments lexically and the restricted-path
check lowercases both sides and tests a raw string prefix).  String-level
operations are re-implemented over `List Char` so that every definition
reduces in the kernel.
-/

namespace FileExaminer

deriving instance DecidableEq for Except

/-- Lowercase a string character by character.  Models JavaScript
`String.prototype.toLowerCase` on the ASCII range. -/
def lowerStr (s : String) : String :=
  String.mk (s.data.map Char.toLower)

/-- Raw string-prefix test, modelling JavaScript
`String.prototype.startsWith`. -/
def strStartsWith (s pre : String) : Bool :=
  List.isPrefixOf pre.data s.data

/-- Split a character list at every occurrence of `sep` (separators are
dropped). -/
def splitChar (sep : Char) : List Char → List Char → List (List Char)
  | [], acc => [acc.reverse]
  | c :: cs, acc =>
    if c = sep then acc.reverse :: splitChar sep cs []
    else splitChar sep cs (c :: acc)

/-- Non-empty `/`-separated segments of a path string. -/
def pathSegs (s : String) : List String :=
  ((splitChar '/' s.data []).filter (fun l => l ≠ [])).map String.mk

/-- Process one segment the way lexical path resolution does: `.` is
dropped, `..` pops the last segment (a no-op at the root), anything else is
appended. -/
def resolveStep (stack : List String) (seg : String) : List String :=
  if seg = "." then stack
  else if seg = ".." then stack.dropLast
  else stack ++ [seg]

/-- Join segments with `/` separators. -/
def joinSlash : List String → String
  | [] => ""
  | s :: ss => ss.foldl (fun a b => a ++ "/" ++ b) s

/-- Lexical canonicalisation of an absolute POSIX-style path, modelling Node
`path.resolve` on an absolute input: `.` and `..` segments are eliminated and
duplicate or trailing separators removed.  Symbolic links are NOT resolved —
`path.resolve` is purely lexical. -/
def pathResolve (s : String) : String :=
  "/" ++ joinSlash ((pathSegs s).foldl resolveStep [])

/-- Error message built by `validatePath` (source line 371). -/
def accessDeniedMsg (r : String) : String :=
  "Access denied: Path is in restricted directory: " ++ r

/-- Embeds `validatePath` (source lines 365–376): lexically resolve the
input, then reject when the lowercased result starts — as a raw string —
with the lowercased form of any restricted path, returning the error for the
first restricted path that matches. -/
def validatePath (restrictedPaths : List String) (filePath : String) :
    Except String String :=
  let normalizedPath := pathResolve filePath
  match restrictedPaths.find?
      (fun r => strStartsWith (lowerStr normalizedPath) (lowerStr r)) with
  | some r => .error (accessDeniedMsg r)
  | none => .ok normalizedPath

/-- Modelled from the spec (comparison definition for the refinement claim):
`c` is equal to, or nested under, the restricted path `r`, decided
case-insensitively on path-segment boundaries — `c` equals `r` or extends it
past a `/` separator. -/
def segUnder (r c : String) : Bool :=
  lowerStr c = lowerStr r || strStartsWith (lowerStr c) (lowerStr r ++ "/")

theorem segUnder_startsWith {r c : String} (h : segUnder r c = true) :
    strStartsWith (lowerStr c) (lowerStr r) = true := by
  rcases Bool.or_eq_true_iff.mp h with h1 | h2
  · have h1 : lowerStr c = lowerStr r := of_decide_eq_true h1
    simp only [strStartsWith, h1]
    exact List.isPrefixOf_iff_prefix.mpr List.prefix_rfl
  · simp only [strStartsWith, String.data] at *
    have : List.IsPrefix ((lowerStr r).data ++ ['/']) (lowerStr c).data := by
      have := List.isPrefixOf_iff_prefix.mp h2
      simpa using this
    exact List.isPrefixOf_iff_prefix.mpr
      (List.IsPrefix.trans (List.prefix_append _ _) this)

theorem validatePath_error_iff (rs : List String) (p : String) :
    (∃ e, validatePath rs p = .error e) ↔
      ∃ r ∈ rs, strStartsWith (lowerStr (pathResolve p)) (lowerStr r) = true := by
  unfold validatePath
  constructor
  · intro ⟨e, he⟩
    cases hf : rs.find?
        (fun r => strStartsWith (lowerStr (pathResolve p)) (lowerStr r)) with
    | none => simp [hf] at he
    | some r =>
      exact ⟨r, List.mem_of_find?_eq_some hf, by simpa using List.find?_some hf⟩
  · intro ⟨r, hr, hpre⟩
    cases hf : rs.find?
        (fun r => strStartsWith (lowerStr (pathResolve p)) (lowerStr r)) with
    | none =>
      have := List.find?_eq_none.mp hf r hr
      simp [hpre] at this
    | some r₀ => exact ⟨accessDeniedMsg r₀, by simp [hf]⟩

/-- C1 counterexample: with restricted path `/a/b`, the input `/a/bc` is
rejected by `validatePath` even though `/a/bc` is not equal to, nor nested
under, `/a/b` on path-segment boundaries — the code compares raw string
prefixes, not segment boundaries. -/
theorem validatePath_rejects_raw_share :
    validatePath ["/a/b"] "/a/bc" = .error (accessDeniedMsg "/a/b") ∧
      segUnder "/a/b" (pathResolve "/a/bc") = false := by
  constructor <;> rfl

/-- C1 (amended): path validation rejects with the access-denied error
exactly when the lowercased canonical (lexically resolved) path starts, as a
raw string, with the lowercased form of some entry of the restricted list;
the comparison is case-insensitive but not segment-boundary-aware, so
`/a/bc` — which merely shares a raw string prefix with the restricted entry
`/a/b` — is also rejected. -/
theorem validatePath_raw_string_semantics :
    (∀ (rs : List String) (p : String),
      (∃ e, validatePath rs p = .error e) ↔
        ∃ r ∈ rs,
          strStartsWith (lowerStr (pathResolve p)) (lowerStr r) = true) ∧
    validatePath ["/a/b"] "/a/bc" = .error (accessDeniedMsg "/a/b") := by
  exact ⟨validatePath_error_iff, rfl⟩

/-- Last non-empty `/`-separated segment, modelling Node `path.basename` on
canonical paths (which carry no trailing separator). -/
def basenameStr (p : String) : String :=
  (pathSegs p).getLastD ""

/-- Models Node `path.extname` for ordinary names: the text from the last
`.` of the final path segment to its end (the dot included); a name without
a dot, or whose only dot is its first character, has extension `""`. -/
def extname (p : String) : String :=
  let cs := (basenameStr p).data
  let tailRev := cs.reverse.takeWhile (fun c => c ≠ '.')
  if cs.length ≤ tailRev.length + 1 then ""
  else String.mk ('.' :: tailRev.reverse)

/-- Plugin configuration record assembled by `getConfig` (source lines
327–360) from the config schematics. -/
structure Config where
  allowedExtensions : List String
  restrictedPaths : List String
  maxFileSize : Nat
  enableImageFiles : Bool
  enableDotNetFiles : Bool
  enableBinaryFiles : Bool

/-- Image extensions gated by the `enableImageFiles` toggle (source line
390). -/
def imageExtensions : List String :=
  [".jpg", ".jpeg", ".png", ".gif", ".bmp", ".tiff", ".tif", ".webp",
   ".svg", ".ico", ".heic", ".heif", ".raw", ".cr2", ".nef", ".arw", ".dng"]

/-- Extensions gated by the `enableDotNetFiles` toggle (source line 391). -/
def dotnetExtensions : List String :=
  [".cs", ".vb", ".fs", ".csproj", ".vbproj", ".fsproj", ".sln", ".razor",
   ".cshtml", ".vbhtml", ".aspx", ".ascx", ".asmx"]

/-- Extensions gated by the `enableBinaryFiles` toggle (source line 392). -/
def toggleBinaryExtensions : List String :=
  [".dll", ".exe", ".msi", ".nupkg"]

/-- Join strings with a comma separator, modelling
`allowedExtensions.join(', ')`. -/
def joinComma : List String → String
  | [] => ""
  | s :: ss => ss.foldl (fun a b => a ++ ", " ++ b) s

/-- Error message of the extension gate (source line 386). -/
def fileTypeNotAllowedMsg (ext : String) (allowed : List String) : String :=
  "File type not allowed: " ++ ext ++ ". Allowed types: " ++ joinComma allowed

/-- Embeds `validateExtension` (source lines 381–407): allowlist membership
first, then the three per-category toggles. -/
def validateExtension (cfg : Config) (filePath : String) :
    Except String Unit :=
  let ext := lowerStr (extname filePath)
  if ! cfg.allowedExtensions.contains ext then
    .error (fileTypeNotAllowedMsg ext cfg.allowedExtensions)
  else if imageExtensions.contains ext && ! cfg.enableImageFiles then
    .error "Image files are disabled in plugin configuration"
  else if dotnetExtensions.contains ext && ! cfg.enableDotNetFiles then
    .error ".NET files are disabled in plugin configuration"
  else if toggleBinaryExtensions.contains ext && ! cfg.enableBinaryFiles then
    .error "Binary files are disabled in plugin configuration"
  else
    .ok ()

/-- Modelled external collaborator: the `mime-types` lookup (a pure table
from the file extension to a MIME string), restricted to the extensions this
development exercises; `none` models the `false` the JS library returns for
an unknown extension. -/
def mimeLookup (p : String) : Option String :=
  let e := lowerStr (extname p)
  if e = ".txt" || e = ".log" || e = ".ini" || e = ".conf" then
    some "text/plain"
  else if e = ".md" then some "text/markdown"
  else if e = ".csv" then some "text/csv"
  else if e = ".html" then some "text/html"
  else if e = ".css" then some "text/css"
  else if e = ".js" then some "text/javascript"
  else if e = ".json" then some "application/json"
  else if e = ".xml" then some "application/xml"
  else if e = ".png" then some "image/png"
  else if e = ".jpg" || e = ".jpeg" then some "image/jpeg"
  else if e = ".gif" then some "image/gif"
  else if e = ".svg" then some "image/svg+xml"
  else if e = ".exe" || e = ".dll" || e = ".msi" then
    some "application/x-msdownload"
  else none

/-- Kind of a filesystem entry, as reported by `stat`/`Dirent`. -/
inductive FileKind where
  | file
  | dir
  | other
deriving DecidableEq

/-- Result of a successful `fs.stat`, with the file content carried
alongside so that `fs.readFile` can be modelled on the same record (the
content stands for the text decoded with the requested encoding). -/
structure Stats where
  kind : FileKind
  size : Nat
  mtime : Nat
  birthtime : Nat
  atime : Nat
  content : String
deriving DecidableEq

/-- Directory entry as returned by `fs.readdir(..., { withFileTypes: true })`. -/
structure DirEnt where
  name : String
  kind : FileKind
deriving DecidableEq

/-- Abstract filesystem a call runs against.  `resolveSymlinks` is the
operating-system resolution of symbolic links applied by `fs.stat`,
`fs.readFile` and `fs.readdir` before they touch an entry (identity when no
symlinks are involved); `stat` and `readdir` are keyed by the real
(symlink-free) path, `none` modelling a thrown error (missing entry or
denied permission). -/
structure Filesystem where
  resolveSymlinks : String → String
  stat : String → Option Stats
  readdir : String → Option (List DirEnt)

/-- Stat through the OS symlink resolution. -/
def Filesystem.statAt (fs : Filesystem) (p : String) : Option Stats :=
  fs.stat (fs.resolveSymlinks p)

/-- Enumerate a directory through the OS symlink resolution. -/
def Filesystem.readdirAt (fs : Filesystem) (p : String) : Option (List DirEnt) :=
  fs.readdir (fs.resolveSymlinks p)

/-- Message of the error thrown by `fs.stat` on a missing entry. -/
def enoentMsg (p : String) : String :=
  "ENOENT: no such file or directory, stat " ++ p

/-- Binary file extensions of the read handler (source lines 465–469):
these return metadata instead of content. -/
def readFileBinaryExtensions : List String :=
  [".jpg", ".jpeg", ".png", ".gif", ".bmp", ".tiff", ".tif", ".webp",
   ".ico", ".heic", ".heif", ".raw", ".cr2", ".nef", ".arw", ".dng",
   ".dll", ".exe", ".msi", ".nupkg"]

/-- Fixed placeholder returned as the `content` of a binary file (source
line 480). -/
def binaryPlaceholder : String :=
  "[Binary file - content not readable as text]"

/-- Binary classification of the read handler (source lines 471–473). -/
def isBinaryFile (ext mimeType : String) : Bool :=
  readFileBinaryExtensions.contains ext ||
    strStartsWith mimeType "image/" ||
    strStartsWith mimeType "application/"

/-- Error message of the size gate (source line 458). -/
def tooLargeMsg (size maxSize : Nat) : String :=
  "File too large: " ++ toString size ++ " bytes (max: " ++ toString maxSize ++ ")"

/-- Success payload of `read_file`; the error case of the `Except` models
the `{success: false, error}` envelope. -/
structure ReadOk where
  isBinary : Bool
  content : String
  path : String
  size : Nat
  encoding : Option String
  mimeType : String
  lastModified : Nat
deriving DecidableEq

/-- Embeds the `read_file` implementation of the configuration-aware
handler (source lines 444–511): validate path, validate extension, stat,
regular-file check, strict size check, then binary-vs-text disposition.
The `encoding` parameter is accepted and, as in the source, only influences
how bytes are decoded, which the model abstracts into `Stats.content`. -/
def read_file (cfg : Config) (fs : Filesystem) (file_path encoding : String) :
    Except String ReadOk :=
  match validatePath cfg.restrictedPaths file_path with
  | .error e => .error e
  | .ok validatedPath =>
    match validateExtension cfg validatedPath with
    | .error e => .error e
    | .ok _ =>
      match fs.statAt validatedPath with
      | none => .error (enoentMsg validatedPath)
      | some stats =>
        if stats.kind ≠ FileKind.file then .error "Path is not a file"
        else if stats.size > cfg.maxFileSize then
          .error (tooLargeMsg stats.size cfg.maxFileSize)
        else
          let ext := lowerStr (extname validatedPath)
          let mimeType := (mimeLookup validatedPath).getD "unknown"
          if isBinaryFile ext mimeType then
            .ok { isBinary := true, content := binaryPlaceholder,
                  path := validatedPath, size := stats.size,
                  encoding := none, mimeType := mimeType,
                  lastModified := stats.mtime }
          else
            .ok { isBinary := false, content := stats.content,
                  path := validatedPath, size := stats.size,
                  encoding := some encoding, mimeType := mimeType,
                  lastModified := stats.mtime }

theorem read_file_ok_of_gates
    (cfg : Config) (fs : Filesystem) (p enc vp : String) (st : Stats)
    (hval : validatePath cfg.restrictedPaths p = .ok vp)
    (hext : validateExtension cfg vp = .ok ())
    (hstat : fs.statAt vp = some st)
    (hfile : st.kind = FileKind.file)
    (hsize : st.size ≤ cfg.maxFileSize) :
    read_file cfg fs p enc =
      if isBinaryFile (lowerStr (extname vp)) ((mimeLookup vp).getD "unknown") then
        .ok { isBinary := true, content := binaryPlaceholder, path := vp,
              size := st.size, encoding := none,
              mimeType := (mimeLookup vp).getD "unknown",
              lastModified := st.mtime }
      else
        .ok { isBinary := false, content := st.content, path := vp,
              size := st.size, encoding := some enc,
              mimeType := (mimeLookup vp).getD "unknown",
              lastModified := st.mtime } := by
  simp only [read_file, hval, hext, hstat]
  simp [hfile, Nat.not_lt.mpr hsize]

theorem read_file_isBinary_content {cfg : Config} {fs : Filesystem}
    {p enc : String} {r : ReadOk}
    (h : read_file cfg fs p enc = .ok r) (hb : r.isBinary = true) :
    r.content = binaryPlaceholder := by
  unfold read_file at h
  repeat' (first | split at h | dsimp only at h)
  all_goals cases h
  all_goals simp_all

/-- C3: a file classified as binary is answered with a success envelope
whose `content` is the fixed placeholder string — never the on-disk bytes —
and any two successful reads classified binary return identical `content`,
whatever the two files hold. -/
theorem read_file_binary_fixed_placeholder :
    (∀ (cfg : Config) (fs : Filesystem) (p enc vp : String) (st : Stats),
      validatePath cfg.restrictedPaths p = .ok vp →
      validateExtension cfg vp = .ok () →
      fs.statAt vp = some st →
      st.kind = FileKind.file →
      st.size ≤ cfg.maxFileSize →
      isBinaryFile (lowerStr (extname vp)) ((mimeLookup vp).getD "unknown") = true →
      read_file cfg fs p enc =
        .ok { isBinary := true, content := binaryPlaceholder, path := vp,
              size := st.size, encoding := none,
              mimeType := (mimeLookup vp).getD "unknown",
              lastModified := st.mtime }) ∧
    (∀ (cfg₁ cfg₂ : Config) (fs₁ fs₂ : Filesystem) (p₁ p₂ e₁ e₂ : String)
        (r₁ r₂ : ReadOk),
      read_file cfg₁ fs₁ p₁ e₁ = .ok r₁ → r₁.isBinary = true →
      read_file cfg₂ fs₂ p₂ e₂ = .ok r₂ → r₂.isBinary = true →
      r₁.content = r₂.content) := by
  constructor
  · intro cfg fs p enc vp st hval hext hstat hfile hsize hbin
    rw [read_file_ok_of_gates cfg fs p enc vp st hval hext hstat hfile hsize,
      if_pos hbin]
  · intro cfg₁ cfg₂ fs₁ fs₂ p₁ p₂ e₁ e₂ r₁ r₂ h₁ hb₁ h₂ hb₂
    rw [read_file_isBinary_content h₁ hb₁, read_file_isBinary_content h₂ hb₂]

/-- Test configuration used by the concrete witnesses: a small allowlist,
restricted path `/system`, the default 10 MB limit, all category toggles
enabled. -/
def witCfg : Config where
  allowedExtensions := [".txt", ".md", ".json", ".png"]
  restrictedPaths := ["/system"]
  maxFileSize := 10485760
  enableImageFiles := true
  enableDotNetFiles := true
  enableBinaryFiles := true

/-- Stats record of a regular file of the given size and content. -/
def mkFileStats (size : Nat) (content : String) : Stats where
  kind := .file
  size := size
  mtime := 0
  birthtime := 0
  atime := 0
  content := content

/-- Stats record of a directory. -/
def dirStats : Stats where
  kind := .dir
  size := 0
  mtime := 0
  birthtime := 0
  atime := 0
  content := ""

/-- Symlink-free filesystem holding one PNG image at `/data/pic.png`. -/
def pngFs : Filesystem where
  resolveSymlinks := id
  stat := fun p => if p = "/data/pic.png" then some (mkFileStats 4 "RAWB") else none
  readdir := fun _ => none

theorem read_file_binary_fixed_placeholder_witness :
    validatePath witCfg.restrictedPaths "/data/pic.png" = .ok "/data/pic.png" ∧
    validateExtension witCfg "/data/pic.png" = .ok () ∧
    pngFs.statAt "/data/pic.png" = some (mkFileStats 4 "RAWB") ∧
    isBinaryFile (lowerStr (extname "/data/pic.png"))
      ((mimeLookup "/data/pic.png").getD "unknown") = true ∧
    read_file witCfg pngFs "/data/pic.png" "utf8" =
      .ok { isBinary := true, content := binaryPlaceholder,
            path := "/data/pic.png", size := 4, encoding := none,
            mimeType := "image/png", lastModified := 0 } :=
  ⟨rfl, rfl, rfl, rfl,
    read_file_binary_fixed_placeholder.1 witCfg pngFs "/data/pic.png" "utf8"
      "/data/pic.png" (mkFileStats 4 "RAWB") rfl rfl rfl rfl (by decide) rfl⟩

/-- C4: a file whose extension passes the configured allowlist but whose
looked-up MIME type starts with `application/` is nevertheless classified
binary by the read handler, so `read_file` succeeds yet returns the
placeholder instead of the text content (e.g. a `.json` file, MIME
`application/json`). -/
theorem read_file_application_mime_placeholder :
    ∀ (cfg : Config) (fs : Filesystem) (p enc vp m : String) (st : Stats),
      validatePath cfg.restrictedPaths p = .ok vp →
      validateExtension cfg vp = .ok () →
      fs.statAt vp = some st →
      st.kind = FileKind.file →
      st.size ≤ cfg.maxFileSize →
      mimeLookup vp = some m →
      strStartsWith m "application/" = true →
      read_file cfg fs p enc =
        .ok { isBinary := true, content := binaryPlaceholder, path := vp,
              size := st.size, encoding := none, mimeType := m,
              lastModified := st.mtime } := by
  intro cfg fs p enc vp m st hval hext hstat hfile hsize hmime hpre
  have hbin : isBinaryFile (lowerStr (extname vp))
      ((mimeLookup vp).getD "unknown") = true := by
    simp [isBinaryFile, hmime, hpre]
  rw [read_file_ok_of_gates cfg fs p enc vp st hval hext hstat hfile hsize,
    if_pos hbin, hmime]
  rfl

/-- Symlink-free filesystem holding one JSON file at `/data/cfg.json`. -/
def jsonFs : Filesystem where
  resolveSymlinks := id
  stat := fun p => if p = "/data/cfg.json" then some (mkFileStats 2 "[]") else none
  readdir := fun _ => none

theorem read_file_application_mime_placeholder_witness :
    validatePath witCfg.restrictedPaths "/data/cfg.json" = .ok "/data/cfg.json" ∧
    validateExtension witCfg "/data/cfg.json" = .ok () ∧
    mimeLookup "/data/cfg.json" = some "application/json" ∧
    read_file witCfg jsonFs "/data/cfg.json" "utf8" =
      .ok { isBinary := true, content := binaryPlaceholder,
            path := "/data/cfg.json", size := 2, encoding := none,
            mimeType := "application/json", lastModified := 0 } :=
  ⟨rfl, rfl, rfl,
    read_file_application_mime_placeholder witCfg jsonFs "/data/cfg.json"
      "utf8" "/data/cfg.json" "application/json" (mkFileStats 2 "[]")
      rfl rfl rfl rfl (by decide) rfl rfl⟩

/-- C8: once the path and extension gates pass on a regular file, the size
comparison is strict — a file of exactly `maxFileSize` bytes is read
successfully, while one of `maxFileSize + 1` bytes fails with the
file-too-large error. -/
theorem read_file_size_boundary :
    ∀ (cfg : Config) (fs : Filesystem) (p enc vp : String) (st : Stats),
      validatePath cfg.restrictedPaths p = .ok vp →
      validateExtension cfg vp = .ok () →
      fs.statAt vp = some st →
      st.kind = FileKind.file →
      ((st.size = cfg.maxFileSize → ∃ r, read_file cfg fs p enc = .ok r) ∧
       (st.size = cfg.maxFileSize + 1 →
         read_file cfg fs p enc = .error (tooLargeMsg st.size cfg.maxFileSize))) := by
  intro cfg fs p enc vp st hval hext hstat hfile
  constructor
  · intro hsz
    rw [read_file_ok_of_gates cfg fs p enc vp st hval hext hstat hfile hsz.le]
    by_cases hb : isBinaryFile (lowerStr (extname vp))
        ((mimeLookup vp).getD "unknown") = true
    · exact ⟨_, by rw [if_pos hb]⟩
    · exact ⟨_, by rw [if_neg hb]⟩
  · intro hsz
    simp only [read_file, hval, hext, hstat]
    simp [hfile, hsz, Nat.lt_succ_self]

/-- Symlink-free filesystem with two text files: one of exactly the
configured maximum size, one a single byte larger. -/
def sizeFs : Filesystem where
  resolveSymlinks := id
  stat := fun p =>
    if p = "/data/max.txt" then some (mkFileStats 10485760 "a")
    else if p = "/data/over.txt" then some (mkFileStats 10485761 "b")
    else none
  readdir := fun _ => none

theorem read_file_size_boundary_witness :
    validatePath witCfg.restrictedPaths "/data/max.txt" = .ok "/data/max.txt" ∧
    (∃ r, read_file witCfg sizeFs "/data/max.txt" "utf8" = .ok r) ∧
    read_file witCfg sizeFs "/data/over.txt" "utf8" =
      .error (tooLargeMsg 10485761 10485760) :=
  ⟨rfl,
    (read_file_size_boundary witCfg sizeFs "/data/max.txt" "utf8"
      "/data/max.txt" (mkFileStats 10485760 "a") rfl rfl rfl rfl).1 rfl,
    (read_file_size_boundary witCfg sizeFs "/data/over.txt" "utf8"
      "/data/over.txt" (mkFileStats 10485761 "b") rfl rfl rfl rfl).2 rfl⟩

/-- Parent directory of a canonical path, modelling Node `path.dirname`. -/
def dirname (p : String) : String :=
  match (pathSegs p).dropLast with
  | [] => "/"
  | ds => "/" ++ joinSlash ds

/-- Join a directory and an entry name, modelling Node `path.join` for a
canonical directory and a plain entry name. -/
def pathJoin (a b : String) : String :=
  a ++ "/" ++ b

/-- Message of the error thrown by `fs.readdir` on an unreadable or missing
directory. -/
def readdirErrMsg (p : String) : String :=
  "EACCES: permission denied, scandir " ++ p

/-- One item of a `list_directory` success payload (source lines 545–554). -/
structure ListItem where
  name : String
  path : String
  type : String
  size : Nat
  lastModified : Nat
  extension : Option String
  mimeType : Option String
deriving DecidableEq

/-- The item record `list_directory` pushes per kept entry (source lines
150–159 of the loop; built from the entry and its stat). -/
def mkListItem (validatedPath : String) (e : DirEnt) (itemStats : Stats) :
    ListItem where
  name := e.name
  path := pathJoin validatedPath e.name
  type := if e.kind = FileKind.dir then "directory" else "file"
  size := itemStats.size
  lastModified := itemStats.mtime
  extension := if e.kind = FileKind.file then some (extname e.name) else none
  mimeType :=
    if e.kind = FileKind.file then some ((mimeLookup e.name).getD "unknown")
    else none

/-- Embeds the entry loop of `list_directory` (source lines 537–555):
hidden names are skipped unless requested, every kept entry is stat-ed (a
stat failure aborts the whole call, as the loop runs inside the single
try block), and an item record is emitted per kept entry. -/
def listItems (fs : Filesystem) (validatedPath : String)
    (include_hidden : Bool) : List DirEnt → Except String (List ListItem)
  | [] => .ok []
  | e :: es =>
    if ! include_hidden && strStartsWith e.name "." then
      listItems fs validatedPath include_hidden es
    else
      let itemPath := pathJoin validatedPath e.name
      match fs.statAt itemPath with
      | none => .error (enoentMsg itemPath)
      | some itemStats =>
        match listItems fs validatedPath include_hidden es with
        | .error er => .error er
        | .ok items => .ok (mkListItem validatedPath e itemStats :: items)

/-- Success payload of `list_directory`. -/
structure ListOk where
  path : String
  items : List ListItem
  count : Nat
deriving DecidableEq

/-- Embeds the `list_directory` implementation (source lines 525–569). -/
def list_directory (cfg : Config) (fs : Filesystem) (dir_path : String)
    (include_hidden : Bool) : Except String ListOk :=
  match validatePath cfg.restrictedPaths dir_path with
  | .error e => .error e
  | .ok validatedPath =>
    match fs.statAt validatedPath with
    | none => .error (enoentMsg validatedPath)
    | some stats =>
      if stats.kind ≠ FileKind.dir then .error "Path is not a directory"
      else
        match fs.readdirAt validatedPath with
        | none => .error (readdirErrMsg validatedPath)
        | some entries =>
          match listItems fs validatedPath include_hidden entries with
          | .error e => .error e
          | .ok items =>
            .ok { path := validatedPath, items := items, count := items.length }

/-- Extensions the info handler labels ".NET Development File" (source line
595). -/
def dotnetInfoExtensions : List String :=
  [".cs", ".vb", ".fs", ".csproj", ".vbproj", ".fsproj", ".sln", ".config"]

/-- Extensions the info handler labels "Image File" (source line 613). -/
def imageInfoExtensions : List String :=
  [".jpg", ".jpeg", ".png", ".gif", ".bmp", ".tiff", ".tif", ".webp",
   ".svg", ".ico"]

/-- Extensions the info handler labels "Binary/Executable" (source line
624). -/
def execInfoExtensions : List String :=
  [".dll", ".exe", ".msi"]

/-- Success payload of `get_file_info` (source lines 642–658).  The
`fileCategory` field carries the category label of the `additionalInfo`
block; the block's remaining fields (`fileType`, `language`, `framework`,
`description`, `imageFormat`, `warning`, `note`) are constant strings
likewise derived from the extension alone and add no further behaviour, so
the model leaves them out. -/
structure InfoOk where
  path : String
  name : String
  directory : String
  extension : String
  type : String
  size : Nat
  created : Nat
  lastModified : Nat
  lastAccessed : Nat
  mimeType : Option String
  readable : Bool
  writable : Bool
  fileCategory : Option String
deriving DecidableEq

/-- Embeds the `get_file_info` implementation (source lines 583–665): no
extension gate — any path that passes path validation and stats is
answered with its metadata, `writable` constantly false. -/
def get_file_info (cfg : Config) (fs : Filesystem) (file_path : String) :
    Except String InfoOk :=
  match validatePath cfg.restrictedPaths file_path with
  | .error e => .error e
  | .ok validatedPath =>
    match fs.statAt validatedPath with
    | none => .error (enoentMsg validatedPath)
    | some stats =>
      let ext := lowerStr (extname validatedPath)
      .ok { path := validatedPath
            name := basenameStr validatedPath
            directory := dirname validatedPath
            extension := ext
            type :=
              if stats.kind = FileKind.file then "file"
              else if stats.kind = FileKind.dir then "directory"
              else "other"
            size := stats.size
            created := stats.birthtime
            lastModified := stats.mtime
            lastAccessed := stats.atime
            mimeType :=
              if stats.kind = FileKind.file then
                some ((mimeLookup validatedPath).getD "unknown")
              else none
            readable := true
            writable := false
            fileCategory :=
              if stats.kind = FileKind.file ∧ dotnetInfoExtensions.contains ext then
                some ".NET Development File"
              else if stats.kind = FileKind.file ∧ imageInfoExtensions.contains ext then
                some "Image File"
              else if stats.kind = FileKind.file ∧ execInfoExtensions.contains ext then
                some "Binary/Executable"
              else none }

/-- Token of the compiled search pattern. -/
inductive GlobToken where
  | star
  | anyChar
  | lit (c : Char)
deriving DecidableEq

/-- JavaScript regex line terminators: LF, CR, U+2028, U+2029.  The regex
`.` metacharacter matches any character except these. -/
def isLineTerm (c : Char) : Bool :=
  c = Char.ofNat 10 || c = Char.ofNat 13 ||
    c = Char.ofNat 0x2028 || c = Char.ofNat 0x2029

/-- Compile one pattern character following the source construction
`new RegExp("^" + pattern.replace(wildcard star, dot-star).replace(qmark,
dot) + "$", "i")` (source lines 685–691): the `*` wildcard becomes the
regex dot-star, `?` becomes the regex dot, and EVERY other character is
passed into the regular expression unescaped — in particular a literal `.`
in the pattern also behaves as the regex any-character.  The embedding
covers patterns whose remaining characters are not regex metacharacters;
such characters match literally under the case-insensitive flag. -/
def compileChar (c : Char) : GlobToken :=
  if c = '*' then .star
  else if c = '?' || c = '.' then .anyChar
  else .lit c

/-- Compiled form of a whole pattern string. -/
def compilePattern (pattern : String) : List GlobToken :=
  pattern.data.map compileChar

/-- Backtracking loop of the regex dot-star: accept the continuation `f` at
the current position, or consume one non-line-terminator character and
retry — exactly the language of `.*` followed by the continuation. -/
def starMatch (f : List Char → Bool) : List Char → Bool
  | [] => f []
  | c :: cs => f (c :: cs) || (! isLineTerm c && starMatch f cs)

/-- Execution of the compiled, fully anchored, case-insensitive regex over
the file name: `star` consumes zero or more non-line-terminator characters
(regex dot-star), `anyChar` exactly one non-line-terminator character
(regex dot), `lit a` one character equal to `a` up to ASCII case (the `i`
flag). -/
def globMatch : List GlobToken → List Char → Bool
  | [], [] => true
  | [], _ :: _ => false
  | .star :: ts, cs => starMatch (globMatch ts) cs
  | .anyChar :: _, [] => false
  | .anyChar :: ts, c :: cs => ! isLineTerm c && globMatch ts cs
  | .lit _ :: _, [] => false
  | .lit a :: ts, c :: cs => (c.toLower = a.toLower) && globMatch ts cs

/-- Embeds `matchesPattern` (source lines 685–691). -/
def matchesPattern (filename pattern : String) : Bool :=
  globMatch (compilePattern pattern) filename.data

/-- One result record of `search_files` (source lines 704–713). -/
structure SearchResult where
  name : String
  path : String
  directory : String
  size : Nat
  lastModified : Nat
  extension : String
  mimeType : String
deriving DecidableEq

/-- The result record `search_files` pushes per matched file (source lines
704–713). -/
def mkSearchResult (dirPath : String) (e : DirEnt) (st : Stats) :
    SearchResult where
  name := e.name
  path := pathJoin dirPath e.name
  directory := dirname (pathJoin dirPath e.name)
  size := st.size
  lastModified := st.mtime
  extension := extname e.name
  mimeType := (mimeLookup (pathJoin dirPath e.name)).getD "unknown"

/-- Models the try/catch around the recursive call (source lines 716–720):
a failed subtree contributes no results instead of failing the caller. -/
def childOf (res : Except String (List SearchResult)) : List SearchResult :=
  match res with
  | .error _ => []
  | .ok rs => rs

/-- Embeds the entry loop of `searchInDirectory` (source lines 698–722):
matched file entries are stat-ed and emitted (a stat failure aborts the
enclosing directory's processing), and for a subdirectory the recursive
call — passed in as `recurse` — runs inside its own try block (`childOf`),
so a failure there is swallowed and contributes no results. -/
def searchEntries (fs : Filesystem) (pattern : String) (recursive : Bool)
    (recurse : String → Except String (List SearchResult)) (dirPath : String) :
    List DirEnt → Except String (List SearchResult)
  | [] => .ok []
  | e :: es =>
    if e.kind = FileKind.file then
      if matchesPattern e.name pattern then
        match fs.statAt (pathJoin dirPath e.name) with
        | none => .error (enoentMsg (pathJoin dirPath e.name))
        | some st =>
          match searchEntries fs pattern recursive recurse dirPath es with
          | .error er => .error er
          | .ok rest => .ok (mkSearchResult dirPath e st :: rest)
      else searchEntries fs pattern recursive recurse dirPath es
    else if e.kind = FileKind.dir ∧ recursive then
      let childResults := childOf (recurse (pathJoin dirPath e.name))
      match searchEntries fs pattern recursive recurse dirPath es with
      | .error er => .error er
      | .ok rest => .ok (childResults ++ rest)
    else searchEntries fs pattern recursive recurse dirPath es

/-- Embeds `searchInDirectory` (source lines 693–723).  The source guard
`if (depth > 10) return`, with the call depth starting at 0 and increasing
by 1 per recursion, is modelled as the fuel `11 - depth`: fuel 0 is depth
11, the first depth at which the guard fires, so a directory is enumerated
exactly when its depth from the root is at most 10. -/
def searchGo (fs : Filesystem) (pattern : String) (recursive : Bool) :
    Nat → String → Except String (List SearchResult)
  | 0, _ => .ok []
  | fuel + 1, dirPath =>
    match fs.readdirAt dirPath with
    | none => .error (readdirErrMsg dirPath)
    | some entries =>
      searchEntries fs pattern recursive
        (searchGo fs pattern recursive fuel) dirPath entries

/-- Success payload of `search_files` (source lines 727–734). -/
structure SearchOk where
  searchPath : String
  pattern : String
  recursive : Bool
  results : List SearchResult
  count : Nat
deriving DecidableEq

/-- Embeds the `search_files` implementation (source lines 680–741): the
root call runs at depth 0 (fuel 11) and a failure there — including an
unreadable root directory — fails the whole call. -/
def search_files (cfg : Config) (fs : Filesystem) (search_path pattern : String)
    (recursive : Bool) : Except String SearchOk :=
  match validatePath cfg.restrictedPaths search_path with
  | .error e => .error e
  | .ok validatedPath =>
    match searchGo fs pattern recursive 11 validatedPath with
    | .error e => .error e
    | .ok results =>
      .ok { searchPath := validatedPath, pattern := pattern,
            recursive := recursive, results := results,
            count := results.length }

theorem validatePath_error_found {rs : List String} {p : String}
    (h : ∃ r ∈ rs, segUnder r (pathResolve p) = true) :
    ∃ r₀ ∈ rs, validatePath rs p = .error (accessDeniedMsg r₀) := by
  obtain ⟨r, hr, hseg⟩ := h
  have hpre := segUnder_startsWith hseg
  cases hf : rs.find?
      (fun s => strStartsWith (lowerStr (pathResolve p)) (lowerStr s)) with
  | none =>
    have := List.find?_eq_none.mp hf r hr
    simp [hpre] at this
  | some r₀ =>
    refine ⟨r₀, List.mem_of_find?_eq_some hf, ?_⟩
    simp only [validatePath, hf]

theorem read_file_error_of_validatePath {cfg : Config} {fs : Filesystem}
    {p enc e : String} (h : validatePath cfg.restrictedPaths p = .error e) :
    read_file cfg fs p enc = .error e := by
  simp only [read_file, h]

theorem list_directory_error_of_validatePath {cfg : Config} {fs : Filesystem}
    {p e : String} {hid : Bool}
    (h : validatePath cfg.restrictedPaths p = .error e) :
    list_directory cfg fs p hid = .error e := by
  simp only [list_directory, h]

theorem get_file_info_error_of_validatePath {cfg : Config} {fs : Filesystem}
    {p e : String} (h : validatePath cfg.restrictedPaths p = .error e) :
    get_file_info cfg fs p = .error e := by
  simp only [get_file_info, h]

theorem search_files_error_of_validatePath {cfg : Config} {fs : Filesystem}
    {p pat e : String} {rcv : Bool}
    (h : validatePath cfg.restrictedPaths p = .error e) :
    search_files cfg fs p pat rcv = .error e := by
  simp only [search_files, h]

/-- Filesystem with a symbolic link `/tmp/link.txt` whose target
`/system/x.txt` lies under the restricted path `/system`. -/
def symFs : Filesystem where
  resolveSymlinks := fun p => if p = "/tmp/link.txt" then "/system/x.txt" else p
  stat := fun p =>
    if p = "/system/x.txt" then some (mkFileStats 5 "hello") else none
  readdir := fun _ => none

/-- C2 counterexample: with restricted path `/system`, the input
`/tmp/link.txt` is a symlink whose real target `/system/x.txt` lies under
the restricted prefix, yet `read_file` succeeds and returns the target's
content — `validatePath` uses the purely lexical `path.resolve` and never
resolves symbolic links, so the claimed guarantee over the symlink-resolved
canonical form fails. -/
theorem symlink_escapes_restriction :
    segUnder "/system" (symFs.resolveSymlinks (pathResolve "/tmp/link.txt")) = true ∧
    read_file witCfg symFs "/tmp/link.txt" "utf8" =
      .ok { isBinary := false, content := "hello", path := "/tmp/link.txt",
            size := 5, encoding := some "utf8", mimeType := "text/plain",
            lastModified := 0 } :=
  ⟨rfl, rfl⟩

/-- C2 (amended): canonicalization is lexical only — `.` and `..` segments,
duplicate and trailing separators and case variants are covered, symbolic
links are not resolved.  For every input path whose lexically resolved form
is equal to, or nested under, some restricted path (case-insensitively),
each of the four operations returns the access-denied error. -/
theorem restricted_lexical_denied_all_ops :
    ∀ (cfg : Config) (fs : Filesystem) (p enc pat : String) (hid rcv : Bool),
      (∃ r ∈ cfg.restrictedPaths, segUnder r (pathResolve p) = true) →
      ∃ r ∈ cfg.restrictedPaths,
        read_file cfg fs p enc = .error (accessDeniedMsg r) ∧
        list_directory cfg fs p hid = .error (accessDeniedMsg r) ∧
        get_file_info cfg fs p = .error (accessDeniedMsg r) ∧
        search_files cfg fs p pat rcv = .error (accessDeniedMsg r) := by
  intro cfg fs p enc pat hid rcv h
  obtain ⟨r₀, hr₀, herr⟩ := validatePath_error_found h
  exact ⟨r₀, hr₀, read_file_error_of_validatePath herr,
    list_directory_error_of_validatePath herr,
    get_file_info_error_of_validatePath herr,
    search_files_error_of_validatePath herr⟩

theorem restricted_lexical_denied_all_ops_witness :
    (∃ r ∈ witCfg.restrictedPaths,
      segUnder r (pathResolve "/system/../system/x.txt") = true) ∧
    ∃ r ∈ witCfg.restrictedPaths,
      read_file witCfg symFs "/system/../system/x.txt" "utf8" =
        .error (accessDeniedMsg r) ∧
      list_directory witCfg symFs "/system/../system/x.txt" false =
        .error (accessDeniedMsg r) ∧
      get_file_info witCfg symFs "/system/../system/x.txt" =
        .error (accessDeniedMsg r) ∧
      search_files witCfg symFs "/system/../system/x.txt" "*" false =
        .error (accessDeniedMsg r) :=
  ⟨⟨"/system", by simp [witCfg], rfl⟩,
    restricted_lexical_denied_all_ops witCfg symFs "/system/../system/x.txt"
      "utf8" "*" false false ⟨"/system", by simp [witCfg], rfl⟩⟩

theorem listItems_cons (fs : Filesystem) (vdp : String) (hid : Bool)
    (e : DirEnt) (es : List DirEnt) :
    listItems fs vdp hid (e :: es) =
      if ! hid && strStartsWith e.name "." then listItems fs vdp hid es
      else
        match fs.statAt (pathJoin vdp e.name) with
        | none => .error (enoentMsg (pathJoin vdp e.name))
        | some itemStats =>
          match listItems fs vdp hid es with
          | .error er => .error er
          | .ok items => .ok (mkListItem vdp e itemStats :: items) := rfl

theorem listItems_ok (fs : Filesystem) (vdp : String) (hid : Bool) :
    ∀ es : List DirEnt,
      (∀ e ∈ es, (hid = true ∨ strStartsWith e.name "." = false) →
        (fs.statAt (pathJoin vdp e.name)).isSome = true) →
      ∃ items, listItems fs vdp hid es = .ok items ∧
        ∀ e ∈ es, (hid = true ∨ strStartsWith e.name "." = false) →
          ∃ item ∈ items, item.name = e.name ∧ item.path = pathJoin vdp e.name := by
  intro es
  induction es with
  | nil => exact fun _ => ⟨[], rfl, by simp⟩
  | cons e es ih =>
    intro h
    obtain ⟨items, hok, hitems⟩ := ih fun x hx => h x (List.mem_cons_of_mem _ hx)
    by_cases hskip : (! hid && strStartsWith e.name ".") = true
    · refine ⟨items, by simp [listItems_cons, hskip, hok], ?_⟩
      intro x hx hcond
      rcases List.mem_cons.mp hx with rfl | hx
      · simp only [Bool.and_eq_true, Bool.not_eq_true'] at hskip
        rcases hcond with h1 | h1 <;> simp [h1] at hskip
      · exact hitems x hx hcond
    · have hskip' : (! hid && strStartsWith e.name ".") = false := by
        cases hb : (! hid && strStartsWith e.name ".")
        · rfl
        · exact absurd hb hskip
      have hcond : hid = true ∨ strStartsWith e.name "." = false := by
        cases hhid : hid
        · cases hs : strStartsWith e.name "."
          · exact Or.inr rfl
          · exact absurd (by simp [hhid, hs]) hskip
        · exact Or.inl rfl
      obtain ⟨st, hst⟩ := Option.isSome_iff_exists.mp (h e (List.mem_cons_self e es) hcond)
      refine ⟨mkListItem vdp e st :: items,
        by simp [listItems_cons, hskip', hst, hok], ?_⟩
      intro x hx hcx
      rcases List.mem_cons.mp hx with rfl | hx
      · exact ⟨_, List.mem_cons_self _ _, rfl, rfl⟩
      · obtain ⟨item, hmem, hi⟩ := hitems x hx hcx
        exact ⟨item, List.mem_cons_of_mem _ hmem, hi⟩

/-- C7: the extension allowlist gates only the read operation — with a path
that passes path validation but an extension outside the allowlist,
`read_file` fails with the file-type-not-allowed error, while
`get_file_info` on the file and `list_directory` on its containing
directory still succeed and report the entry's metadata. -/
theorem extension_gate_only_on_read :
    (∀ (cfg : Config) (fs : Filesystem) (p enc vp : String),
      validatePath cfg.restrictedPaths p = .ok vp →
      cfg.allowedExtensions.contains (lowerStr (extname vp)) = false →
      read_file cfg fs p enc =
        .error (fileTypeNotAllowedMsg (lowerStr (extname vp))
          cfg.allowedExtensions)) ∧
    (∀ (cfg : Config) (fs : Filesystem) (p vp : String) (st : Stats),
      validatePath cfg.restrictedPaths p = .ok vp →
      fs.statAt vp = some st →
      ∃ info, get_file_info cfg fs p = .ok info ∧ info.name = basenameStr vp ∧
        info.size = st.size ∧ info.extension = lowerStr (extname vp) ∧
        info.writable = false) ∧
    (∀ (cfg : Config) (fs : Filesystem) (dp vdp : String) (hid : Bool)
        (st : Stats) (es : List DirEnt),
      validatePath cfg.restrictedPaths dp = .ok vdp →
      fs.statAt vdp = some st → st.kind = FileKind.dir →
      fs.readdirAt vdp = some es →
      (∀ e ∈ es, (hid = true ∨ strStartsWith e.name "." = false) →
        (fs.statAt (pathJoin vdp e.name)).isSome = true) →
      ∃ l, list_directory cfg fs dp hid = .ok l ∧
        ∀ e ∈ es, (hid = true ∨ strStartsWith e.name "." = false) →
          ∃ item ∈ l.items, item.name = e.name ∧
            item.path = pathJoin vdp e.name) := by
  refine ⟨?_, ?_, ?_⟩
  · intro cfg fs p enc vp hval hcont
    have hmem : lowerStr (extname vp) ∉ cfg.allowedExtensions := by
      simpa using hcont
    simp [read_file, hval, validateExtension, hmem]
  · intro cfg fs p vp st hval hstat
    simp only [get_file_info, hval, hstat]
    exact ⟨_, rfl, rfl, rfl, rfl, rfl⟩
  · intro cfg fs dp vdp hid st es hval hstat hdir hrd hstats
    obtain ⟨items, hok, hmem⟩ := listItems_ok fs vdp hid es hstats
    refine ⟨{ path := vdp, items := items, count := items.length }, ?_, ?_⟩
    · simp [list_directory, hval, hstat, hdir, hrd, hok]
    · simpa using hmem

/-- Filesystem holding the directory `/docs` with a single file whose
extension `.qqq` is outside the configured allowlist. -/
def qqqFs : Filesystem where
  resolveSymlinks := id
  stat := fun p =>
    if p = "/docs" then some dirStats
    else if p = "/docs/notes.qqq" then some (mkFileStats 7 "zzzzzzz")
    else none
  readdir := fun p =>
    if p = "/docs" then some [{ name := "notes.qqq", kind := .file }] else none

theorem extension_gate_only_on_read_witness :
    witCfg.allowedExtensions.contains (lowerStr (extname "/docs/notes.qqq")) = false ∧
    read_file witCfg qqqFs "/docs/notes.qqq" "utf8" =
      .error (fileTypeNotAllowedMsg ".qqq" witCfg.allowedExtensions) ∧
    (∃ info, get_file_info witCfg qqqFs "/docs/notes.qqq" = .ok info ∧
      info.name = basenameStr "/docs/notes.qqq" ∧ info.size = 7 ∧
      info.extension = ".qqq" ∧ info.writable = false) ∧
    (∃ l, list_directory witCfg qqqFs "/docs" false = .ok l ∧
      ∀ e ∈ [({ name := "notes.qqq", kind := .file } : DirEnt)],
        (false = true ∨ strStartsWith e.name "." = false) →
        ∃ item ∈ l.items, item.name = e.name ∧
          item.path = pathJoin "/docs" e.name) :=
  ⟨rfl,
    extension_gate_only_on_read.1 witCfg qqqFs "/docs/notes.qqq" "utf8"
      "/docs/notes.qqq" rfl rfl,
    extension_gate_only_on_read.2.1 witCfg qqqFs "/docs/notes.qqq"
      "/docs/notes.qqq" (mkFileStats 7 "zzzzzzz") rfl rfl,
    extension_gate_only_on_read.2.2 witCfg qqqFs "/docs" "/docs" false
      dirStats [{ name := "notes.qqq", kind := .file }] rfl rfl rfl rfl
      (by decide)⟩

/-- Characters with a regular-expression meta meaning, by code point: 46
`.`, 94 `^`, 36 dollar, 40 and 41 the parentheses, 91 and 93 the square
brackets, 92 the backslash, 124 the bar, 43 `+`, 42 `*`, 63 `?`, 123 and
125 the braces.  A character outside this set that is not a line terminator
is "plain": passed unescaped into the regex it matches only itself. -/
def plainChar (c : Char) : Bool :=
  ! (c.toNat = 46 || c.toNat = 94 || c.toNat = 36 || c.toNat = 40 ||
     c.toNat = 41 || c.toNat = 91 || c.toNat = 93 || c.toNat = 92 ||
     c.toNat = 124 || c.toNat = 43 || c.toNat = 42 || c.toNat = 63 ||
     c.toNat = 123 || c.toNat = 125) && ! isLineTerm c

theorem plainChar_ne_star {c : Char} (h : plainChar c = true) : c ≠ '*' :=
  fun hc => absurd (hc ▸ h) (by decide)

theorem plainChar_ne_qmark {c : Char} (h : plainChar c = true) : c ≠ '?' :=
  fun hc => absurd (hc ▸ h) (by decide)

theorem plainChar_ne_dot {c : Char} (h : plainChar c = true) : c ≠ '.' :=
  fun hc => absurd (hc ▸ h) (by decide)

theorem compileChar_plain {c : Char} (h : plainChar c = true) :
    compileChar c = .lit c := by
  simp [compileChar, plainChar_ne_star h, plainChar_ne_qmark h,
    plainChar_ne_dot h]

/-- Modelled from the spec (semantics side of the refinement claim): the
pattern matches the WHOLE name, read left to right — `*` consumes zero or
more characters, `?` consumes exactly one, and any other pattern character
consumes exactly one name character equal to it up to case. -/
inductive GlobSpec : List Char → List Char → Prop where
  | nil : GlobSpec [] []
  | star (ws : List Char) {ps ns : List Char} :
      GlobSpec ps ns → GlobSpec ('*' :: ps) (ws ++ ns)
  | one (c : Char) {ps ns : List Char} :
      GlobSpec ps ns → GlobSpec ('?' :: ps) (c :: ns)
  | lit (d c : Char) {ps ns : List Char} :
      d ≠ '*' → d ≠ '?' → c.toLower = d.toLower →
      GlobSpec ps ns → GlobSpec (d :: ps) (c :: ns)

theorem starMatch_iff (f : List Char → Bool) (ns : List Char) :
    starMatch f ns = true ↔
      ∃ ws zs, ns = ws ++ zs ∧ (∀ c ∈ ws, isLineTerm c = false) ∧
        f zs = true := by
  induction ns with
  | nil =>
    rw [show starMatch f [] = f [] from rfl]
    constructor
    · intro h
      exact ⟨[], [], rfl, by simp, h⟩
    · rintro ⟨ws, zs, heq, _, h⟩
      rcases List.append_eq_nil.mp heq.symm with ⟨rfl, rfl⟩
      exact h
  | cons c cs ih =>
    constructor
    · intro h
      simp only [starMatch, Bool.or_eq_true, Bool.and_eq_true,
        Bool.not_eq_true'] at h
      rcases h with h1 | ⟨hterm, hrest⟩
      · exact ⟨[], c :: cs, rfl, by simp, h1⟩
      · obtain ⟨ws, zs, heq, hws, hm⟩ := ih.mp hrest
        refine ⟨c :: ws, zs, by rw [heq]; rfl, ?_, hm⟩
        intro x hx
        rcases List.mem_cons.mp hx with rfl | hx
        · exact hterm
        · exact hws x hx
    · rintro ⟨ws, zs, heq, hws, hm⟩
      cases ws with
      | nil =>
        simp only [List.nil_append] at heq
        subst heq
        simp only [starMatch, Bool.or_eq_true]
        exact Or.inl hm
      | cons w ws =>
        simp only [List.cons_append, List.cons.injEq] at heq
        obtain ⟨rfl, heq⟩ := heq
        simp only [starMatch, Bool.or_eq_true, Bool.and_eq_true]
        refine Or.inr ⟨by simpa using hws c (List.mem_cons_self _ _), ?_⟩
        exact ih.mpr ⟨ws, zs, heq, fun x hx => hws x (List.mem_cons_of_mem _ hx), hm⟩

theorem globMatch_star_iff (ts : List GlobToken) (ns : List Char) :
    globMatch (.star :: ts) ns = true ↔
      ∃ ws zs, ns = ws ++ zs ∧ (∀ c ∈ ws, isLineTerm c = false) ∧
        globMatch ts zs = true := by
  rw [show globMatch (GlobToken.star :: ts) ns = starMatch (globMatch ts) ns
    from by cases ns <;> rfl]
  exact starMatch_iff (globMatch ts) ns

theorem globMatch_sound :
    ∀ (ps ns : List Char),
      (∀ c ∈ ps, c = '*' ∨ c = '?' ∨ plainChar c = true) →
      globMatch (ps.map compileChar) ns = true → GlobSpec ps ns := by
  intro ps
  induction ps with
  | nil =>
    intro ns _ h
    cases ns with
    | nil => exact GlobSpec.nil
    | cons c cs => simp [globMatch] at h
  | cons p ps ih =>
    intro ns hp h
    have hp0 := hp p (List.mem_cons_self _ _)
    have hps := fun c hc => hp c (List.mem_cons_of_mem _ hc)
    rcases hp0 with rfl | rfl | hplain
    · rw [List.map_cons, show compileChar '*' = .star from rfl] at h
      obtain ⟨ws, zs, heq, _, hm⟩ := (globMatch_star_iff _ _).mp h
      exact heq ▸ GlobSpec.star ws (ih zs hps hm)
    · cases ns with
      | nil =>
        rw [List.map_cons, show compileChar '?' = .anyChar from rfl] at h
        simp [globMatch] at h
      | cons c cs =>
        rw [List.map_cons, show compileChar '?' = .anyChar from rfl] at h
        simp only [globMatch, Bool.and_eq_true] at h
        exact GlobSpec.one c (ih cs hps h.2)
    · have hcc : compileChar p = .lit p := compileChar_plain hplain
      cases ns with
      | nil =>
        rw [List.map_cons, hcc] at h
        simp [globMatch] at h
      | cons c cs =>
        rw [List.map_cons, hcc] at h
        simp only [globMatch, Bool.and_eq_true, decide_eq_true_eq] at h
        exact GlobSpec.lit p c (plainChar_ne_star hplain)
          (plainChar_ne_qmark hplain) h.1 (ih cs hps h.2)

theorem globMatch_complete :
    ∀ {ps ns : List Char}, GlobSpec ps ns →
      (∀ c ∈ ns, isLineTerm c = false) →
      globMatch (ps.map compileChar) ns = true := by
  intro ps ns h
  induction h with
  | nil => exact fun _ => by simp [globMatch]
  | star ws h ih =>
    intro hns
    rw [List.map_cons, show compileChar '*' = GlobToken.star from rfl]
    refine (globMatch_star_iff _ _).mpr ⟨ws, _, rfl, ?_, ih ?_⟩
    · exact fun c hc => hns c (List.mem_append_left _ hc)
    · exact fun c hc => hns c (List.mem_append_right _ hc)
  | one c h ih =>
    intro hns
    rw [List.map_cons, show compileChar '?' = GlobToken.anyChar from rfl]
    simp only [globMatch, Bool.and_eq_true, Bool.not_eq_true']
    exact ⟨hns c (List.mem_cons_self _ _),
      ih fun x hx => hns x (List.mem_cons_of_mem _ hx)⟩
  | lit d c hne1 hne2 hlow h ih =>
    intro hns
    by_cases hdot : d = '.'
    · subst hdot
      rw [List.map_cons, show compileChar '.' = GlobToken.anyChar from rfl]
      simp only [globMatch, Bool.and_eq_true, Bool.not_eq_true']
      exact ⟨hns c (List.mem_cons_self _ _),
        ih fun x hx => hns x (List.mem_cons_of_mem _ hx)⟩
    · have hcc : compileChar d = .lit d := by
        simp [compileChar, hne1, hne2, hdot]
      rw [List.map_cons, hcc]
      simp only [globMatch, Bool.and_eq_true, decide_eq_true_eq]
      exact ⟨hlow, ih fun x hx => hns x (List.mem_cons_of_mem _ hx)⟩

/-- C5 counterexample: the source performs no escaping when it builds the
regex, so the pattern `file.txt` — whose `.` remains the regex any-char —
matches the name `fileAtxt`, refuting the claim that every non-wildcard
pattern character matches only itself. -/
theorem pattern_dot_matches_any_character :
    matchesPattern "fileAtxt" "file.txt" = true ∧
    compileChar '.' = GlobToken.anyChar :=
  ⟨by decide, rfl⟩

/-- C5 (amended): the pattern compiler escapes nothing — only `*` and `?`
are rewritten to their wildcard forms and every other character is passed
into the regular expression as-is, so a regex metacharacter keeps its regex
meaning (a pattern `.` matches any non-line-terminator character, and
`file.txt` also matches `fileAtxt`), while a pattern character that is not
a regex metacharacter matches only itself, up to case. -/
theorem pattern_compiler_no_escaping :
    (matchesPattern "fileAtxt" "file.txt" = true ∧
     matchesPattern "file.txt" "file.txt" = true) ∧
    (∀ c : Char, plainChar c = true → compileChar c = .lit c) ∧
    (∀ (a c : Char) (ts : List GlobToken) (cs : List Char),
      c.toLower ≠ a.toLower →
      globMatch (.lit a :: ts) (c :: cs) = false) := by
  refine ⟨⟨by decide, by decide⟩, fun c h => compileChar_plain h, ?_⟩
  intro a c ts cs hne
  simp [globMatch, hne]

theorem pattern_compiler_no_escaping_witness :
    plainChar (Char.ofNat 120) = true ∧
    compileChar (Char.ofNat 120) = .lit (Char.ofNat 120) ∧
    globMatch [.lit (Char.ofNat 120)] [Char.ofNat 121] = false :=
  ⟨by decide,
    pattern_compiler_no_escaping.2.1 (Char.ofNat 120) (by decide),
    pattern_compiler_no_escaping.2.2 (Char.ofNat 120) (Char.ofNat 121) [] []
      (by decide)⟩

/-- C6: the matcher realises exactly the glob semantics the spec states —
`*` is zero or more characters, `?` exactly one, literals compare
case-insensitively, and the whole file name is matched (anchored at both
ends) — for every pattern built from wildcards and plain (non-regex-meta)
characters and every line-terminator-free name; the four example
evaluations of the spec hold. -/
theorem matcher_glob_semantics :
    (∀ (pattern name : String),
      (∀ c ∈ pattern.data, c = '*' ∨ c = '?' ∨ plainChar c = true) →
      (∀ c ∈ name.data, isLineTerm c = false) →
      (matchesPattern name pattern = true ↔ GlobSpec pattern.data name.data)) ∧
    matchesPattern "report.txt" "*.txt" = true ∧
    matchesPattern "report.txt" "*.TXT" = true ∧
    matchesPattern "a.txt" "?.txt" = true ∧
    matchesPattern "ab.txt" "?.txt" = false := by
  refine ⟨?_, by decide, by decide, by decide, by decide⟩
  intro pattern name hp hn
  exact ⟨fun h => globMatch_sound pattern.data name.data hp h,
    fun h => globMatch_complete h hn⟩

theorem matcher_glob_semantics_witness :
    (∀ c ∈ ("?b" : String).data, c = '*' ∨ c = '?' ∨ plainChar c = true) ∧
    (∀ c ∈ ("xB" : String).data, isLineTerm c = false) ∧
    GlobSpec ("?b" : String).data ("xB" : String).data :=
  ⟨by decide, by decide,
    (matcher_glob_semantics.1 "?b" "xB" (by decide) (by decide)).mp (by decide)⟩

/-- Fold a list of entry names onto a root with `pathJoin`: the path of an
entry reached `names.length` levels below `d`. -/
def joinChain (d : String) (names : List String) : String :=
  names.foldl pathJoin d

theorem childOf_mem {res : Except String (List SearchResult)}
    {r : SearchResult} (h : r ∈ childOf res) :
    ∃ rs, res = .ok rs ∧ r ∈ rs := by
  cases res with
  | error e => simp [childOf] at h
  | ok rs => exact ⟨rs, rfl, h⟩

theorem searchEntries_cons (fs : Filesystem) (pat : String) (rcv : Bool)
    (recurse : String → Except String (List SearchResult)) (dirPath : String)
    (e : DirEnt) (es : List DirEnt) :
    searchEntries fs pat rcv recurse dirPath (e :: es) =
      if e.kind = FileKind.file then
        if matchesPattern e.name pat then
          match fs.statAt (pathJoin dirPath e.name) with
          | none => .error (enoentMsg (pathJoin dirPath e.name))
          | some st =>
            match searchEntries fs pat rcv recurse dirPath es with
            | .error er => .error er
            | .ok rest => .ok (mkSearchResult dirPath e st :: rest)
        else searchEntries fs pat rcv recurse dirPath es
      else if e.kind = FileKind.dir ∧ rcv then
        match searchEntries fs pat rcv recurse dirPath es with
        | .error er => .error er
        | .ok rest =>
          .ok (childOf (recurse (pathJoin dirPath e.name)) ++ rest)
      else searchEntries fs pat rcv recurse dirPath es := rfl

theorem searchEntries_paths {fs : Filesystem} {pat : String} {rcv : Bool}
    {recurse : String → Except String (List SearchResult)} {bound : Nat}
    (hrec : ∀ d out, recurse d = .ok out → ∀ r ∈ out,
      ∃ names, r.path = joinChain d names ∧ 1 ≤ names.length ∧
        names.length ≤ bound) :
    ∀ (dirPath : String) (es : List DirEnt) (out : List SearchResult),
      searchEntries fs pat rcv recurse dirPath es = .ok out →
      ∀ r ∈ out, ∃ names, r.path = joinChain dirPath names ∧
        1 ≤ names.length ∧ names.length ≤ bound + 1 := by
  intro dirPath es
  induction es with
  | nil =>
    intro out h r hr
    cases h
    simp at hr
  | cons e es ih =>
    intro out h r hr
    rw [searchEntries_cons] at h
    by_cases hf : e.kind = FileKind.file
    · rw [if_pos hf] at h
      by_cases hm : matchesPattern e.name pat = true
      · rw [if_pos hm] at h
        cases hst : fs.statAt (pathJoin dirPath e.name) with
        | none => rw [hst] at h; cases h
        | some st =>
          rw [hst] at h
          cases hrest : searchEntries fs pat rcv recurse dirPath es with
          | error er => rw [hrest] at h; cases h
          | ok rest =>
            rw [hrest] at h
            cases h
            rcases List.mem_cons.mp hr with rfl | hr2
            · exact ⟨[e.name], rfl, by simp,
                by simp [Nat.succ_le_succ (Nat.zero_le bound)]⟩
            · exact ih rest hrest r hr2
      · rw [if_neg hm] at h
        exact ih out h r hr
    · rw [if_neg hf] at h
      by_cases hd : e.kind = FileKind.dir ∧ rcv = true
      · rw [if_pos hd] at h
        cases hrest : searchEntries fs pat rcv recurse dirPath es with
        | error er => rw [hrest] at h; cases h
        | ok rest =>
          rw [hrest] at h
          cases h
          rcases List.mem_append.mp hr with hr1 | hr2
          · obtain ⟨rs, hrecur, hrs⟩ := childOf_mem hr1
            obtain ⟨names, hp, h1, h2⟩ := hrec _ _ hrecur r hrs
            exact ⟨e.name :: names, by rw [hp]; rfl, by simp, by
              simpa using Nat.succ_le_succ h2⟩
          · exact ih rest hrest r hr2
      · rw [if_neg hd] at h
        exact ih out h r hr

theorem searchGo_succ (fs : Filesystem) (pat : String) (rcv : Bool)
    (fuel : Nat) (d : String) :
    searchGo fs pat rcv (fuel + 1) d =
      match fs.readdirAt d with
      | none => .error (readdirErrMsg d)
      | some entries =>
        searchEntries fs pat rcv (searchGo fs pat rcv fuel) d entries := rfl

theorem searchGo_paths {fs : Filesystem} {pat : String} {rcv : Bool} :
    ∀ (fuel : Nat) (dirPath : String) (out : List SearchResult),
      searchGo fs pat rcv fuel dirPath = .ok out →
      ∀ r ∈ out, ∃ names, r.path = joinChain dirPath names ∧
        1 ≤ names.length ∧ names.length ≤ fuel := by
  intro fuel
  induction fuel with
  | zero =>
    intro d out h r hr
    cases h
    simp at hr
  | succ fuel ih =>
    intro d out h r hr
    rw [searchGo_succ] at h
    cases hrd : fs.readdirAt d with
    | none =>
      simp only [hrd] at h
      exact Except.noConfusion h
    | some es =>
      simp only [hrd] at h
      exact searchEntries_paths (fun d2 out2 h2 => ih d2 out2 h2) d es out h r hr

/-- Directory at depth `k` of the test chain: `/r`, `/r/d`, `/r/d/d`, … -/
def chainPath : Nat → String
  | 0 => "/r"
  | k + 1 => pathJoin (chainPath k) "d"

/-- Symlink-free filesystem holding a directory chain of depth 15 rooted at
`/r`, with one file `f.txt` in the root and in every chain directory. -/
def chainFs : Filesystem where
  resolveSymlinks := id
  stat := fun p =>
    if ((List.range 16).find? fun k => chainPath k = p).isSome then
      some dirStats
    else if ((List.range 16).find? fun k =>
        pathJoin (chainPath k) "f.txt" = p).isSome then
      some (mkFileStats 1 "x")
    else none
  readdir := fun p =>
    match (List.range 16).find? fun k => chainPath k = p with
    | some k =>
      if k < 15 then
        some [{ name := "f.txt", kind := .file }, { name := "d", kind := .dir }]
      else some [{ name := "f.txt", kind := .file }]
    | none => none

/-- The search result for the `f.txt` file in chain directory `k`. -/
def chainResult (k : Nat) : SearchResult where
  name := "f.txt"
  path := pathJoin (chainPath k) "f.txt"
  directory := chainPath k
  size := 1
  lastModified := 0
  extension := ".txt"
  mimeType := "text/plain"

/-- The files a recursive search of the depth-15 chain emits: exactly those
in the root and in chain directories 1..10 — none deeper. -/
def chainExpected : List SearchResult :=
  (List.range 11).map chainResult

/-- C9: recursive search is depth-bounded — every emitted file lies at most
11 path components below the search root (its directory at most 10 levels
deep), because the traversal silently stops descending once the call depth
exceeds 10; on a directory chain of depth 15 with a file at every level,
the search succeeds and returns exactly the files of depth ≤ 10 and never
one from deeper in the chain.  (In the model the traversal is a total
function, so it terminates on every directory tree by construction.) -/
theorem search_depth_bounded :
    (∀ (cfg : Config) (fs : Filesystem) (sp pat : String) (rcv : Bool)
        (out : SearchOk),
      search_files cfg fs sp pat rcv = .ok out →
      ∀ r ∈ out.results, ∃ names, r.path = joinChain out.searchPath names ∧
        1 ≤ names.length ∧ names.length ≤ 11) ∧
    search_files witCfg chainFs "/r" "*" true =
      .ok { searchPath := "/r", pattern := "*", recursive := true,
            results := chainExpected, count := 11 } := by
  constructor
  · intro cfg fs sp pat rcv out h r hr
    unfold search_files at h
    cases hval : validatePath cfg.restrictedPaths sp with
    | error e =>
      simp only [hval] at h
      exact Except.noConfusion h
    | ok vp =>
      simp only [hval] at h
      cases hgo : searchGo fs pat rcv 11 vp with
      | error e =>
        simp only [hgo] at h
        exact Except.noConfusion h
      | ok results =>
        simp only [hgo] at h
        cases h
        exact searchGo_paths 11 vp results hgo r hr
  · decide

theorem search_depth_bounded_witness :
    ∃ names, (chainResult 10).path = joinChain "/r" names ∧
      1 ≤ names.length ∧ names.length ≤ 11 :=
  search_depth_bounded.1 witCfg chainFs "/r" "*" true
    { searchPath := "/r", pattern := "*", recursive := true,
      results := chainExpected, count := 11 } (by decide)
    (chainResult 10) (by decide)

theorem searchEntries_ok_of_stats {fs : Filesystem} {pat : String}
    (rcv : Bool) (recurse : String → Except String (List SearchResult))
    (dirPath : String) :
    ∀ es : List DirEnt,
      (∀ e ∈ es, e.kind = FileKind.file → matchesPattern e.name pat = true →
        (fs.statAt (pathJoin dirPath e.name)).isSome = true) →
      ∃ out, searchEntries fs pat rcv recurse dirPath es = .ok out := by
  intro es
  induction es with
  | nil => exact fun _ => ⟨[], rfl⟩
  | cons e es ih =>
    intro h
    obtain ⟨out, hout⟩ := ih fun x hx => h x (List.mem_cons_of_mem _ hx)
    by_cases hf : e.kind = FileKind.file
    · by_cases hm : matchesPattern e.name pat = true
      · obtain ⟨st, hst⟩ := Option.isSome_iff_exists.mp
          (h e (List.mem_cons_self e es) hf hm)
        exact ⟨mkSearchResult dirPath e st :: out,
          by rw [searchEntries_cons, if_pos hf, if_pos hm, hst, hout]⟩
      · exact ⟨out, by rw [searchEntries_cons, if_pos hf, if_neg hm]; exact hout⟩
    · by_cases hd : e.kind = FileKind.dir ∧ rcv = true
      · exact ⟨childOf (recurse (pathJoin dirPath e.name)) ++ out,
          by rw [searchEntries_cons, if_neg hf, if_pos hd, hout]⟩
      · exact ⟨out, by rw [searchEntries_cons, if_neg hf, if_neg hd]; exact hout⟩

/-- Filesystem whose root `/s` holds the file `a.txt` and two
subdirectories: `ok` (readable, holding `b.txt`) and `blocked`, whose
enumeration fails (permission denied). -/
def blockedFs : Filesystem where
  resolveSymlinks := id
  stat := fun p =>
    if p = "/s" then some dirStats
    else if p = "/s/a.txt" then some (mkFileStats 3 "aaa")
    else if p = "/s/ok" then some dirStats
    else if p = "/s/ok/b.txt" then some (mkFileStats 4 "bbbb")
    else if p = "/s/blocked" then some dirStats
    else none
  readdir := fun p =>
    if p = "/s" then
      some [{ name := "a.txt", kind := .file }, { name := "ok", kind := .dir },
            { name := "blocked", kind := .dir }]
    else if p = "/s/ok" then some [{ name := "b.txt", kind := .file }]
    else none

/-- The two reachable matches of the blocked-subtree scenario. -/
def blockedExpected : List SearchResult :=
  [{ name := "a.txt", path := "/s/a.txt", directory := "/s", size := 3,
     lastModified := 0, extension := ".txt", mimeType := "text/plain" },
   { name := "b.txt", path := "/s/ok/b.txt", directory := "/s/ok", size := 4,
     lastModified := 0, extension := ".txt", mimeType := "text/plain" }]

/-- C10: a subdirectory whose enumeration fails during recursive search is
silently skipped — whatever the state of the subdirectories, the call
succeeds whenever the root itself enumerates and its matched files stat;
concretely, searching a root with an unreadable subdirectory returns
success with exactly the results from the readable parts, the unreadable
subtree excluded. -/
theorem search_skips_unreadable_subdirs :
    (∀ (cfg : Config) (fs : Filesystem) (sp pat vp : String) (rcv : Bool)
        (es : List DirEnt),
      validatePath cfg.restrictedPaths sp = .ok vp →
      fs.readdirAt vp = some es →
      (∀ e ∈ es, e.kind = FileKind.file → matchesPattern e.name pat = true →
        (fs.statAt (pathJoin vp e.name)).isSome = true) →
      ∃ out, search_files cfg fs sp pat rcv = .ok out) ∧
    search_files witCfg blockedFs "/s" "*.txt" true =
      .ok { searchPath := "/s", pattern := "*.txt", recursive := true,
            results := blockedExpected, count := 2 } := by
  constructor
  · intro cfg fs sp pat vp rcv es hval hrd hstats
    obtain ⟨out, hout⟩ :=
      searchEntries_ok_of_stats rcv (searchGo fs pat rcv 10) vp es hstats
    refine ⟨{ searchPath := vp, pattern := pat, recursive := rcv,
              results := out, count := out.length }, ?_⟩
    unfold search_files
    simp only [hval]
    rw [show (11 : Nat) = 10 + 1 from rfl, searchGo_succ]
    simp only [hrd, hout]
  · decide

theorem search_skips_unreadable_subdirs_witness :
    ∃ out, search_files witCfg blockedFs "/s" "*.txt" true = .ok out :=
  search_skips_unreadable_subdirs.1 witCfg blockedFs "/s" "*.txt" "/s" true
    [{ name := "a.txt", kind := .file }, { name := "ok", kind := .dir },
     { name := "blocked", kind := .dir }] rfl rfl (by decide)

end FileExaminer
